import Mathlib

/-!
Verification of the PAN-Search entity-resolution core.

The Python sources embedded here are `src/utils/nlp.py` (text
normalization and phonetic keys) and `src/search.py` (blocking,
verification, closure expansion).  External collaborators are modelled
explicitly:

* the configuration module (`config.py`, not part of the sources) is
  modelled from the spec as an explicit `Config` value of thresholds and
  limits;
* external libraries (`rapidfuzz.fuzz.token_set_ratio`,
  `phonetics.dmetaphone`, the ITRANS transliteration) are opaque pure
  functions supplied in an `Ext` record;
* the DuckDB data source is a finite table of ledger rows plus
  capability flags for the optional columns, and a run counts the data
  queries it issues against the `transactions` table;
* Unicode-dependent character classes (`re` module `\w` and `\s`,
  `str.lower`, `str.upper`) are modelled on the fragment the data
  ranges over — ASCII plus the Devanagari block — extended with the
  special-cased letter U+0130, whose Unicode lower-casing is the
  two-character sequence U+0069 U+0307 and which witnesses that name
  normalization is not idempotent.  `unicodedata.normalize("NFC", s)`
  is modelled as the identity, which is exact on this fragment away
  from the Devanagari composition exclusions U+0958 to U+095F.
-/

namespace PanSearch

/-- Python regex class `\s` on the ASCII fragment: space, tab, newline,
carriage return, vertical tab, form feed. -/
def pyIsSpace (c : Char) : Bool :=
  c.toNat = 32 || c.toNat = 9 || c.toNat = 10 || c.toNat = 13 ||
    c.toNat = 11 || c.toNat = 12

/-- Membership in the Devanagari block U+0900 to U+097F, from
`DEVANAGARI_BLOCK` in `nlp.py`. -/
def isDevChar (c : Char) : Bool :=
  decide (0x0900 ≤ c.toNat) && decide (c.toNat ≤ 0x097F)

/-- Python regex class `\w` on the modelled fragment: ASCII letters,
digits and the underscore, together with U+0130 (LATIN CAPITAL LETTER
I WITH DOT ABOVE), the tracked representative of the non-ASCII word
characters `\w` also matches; its lower-casing is special-cased (see
`pyLowerExpand`).  The combining mark U+0307 is not alphanumeric in
Python and is correctly outside this class. -/
def pyIsWordChar (c : Char) : Bool :=
  (decide (65 ≤ c.toNat) && decide (c.toNat ≤ 90)) ||
  (decide (97 ≤ c.toNat) && decide (c.toNat ≤ 122)) ||
  (decide (48 ≤ c.toNat) && decide (c.toNat ≤ 57)) ||
  c.toNat = 0x130 ||
  c.toNat = 95

/-- The class of characters kept by `normalize_punct` in `nlp.py`,
i.e. the complement of regex `[^\w\sऀ-ॿ]`. -/
def keepChar (c : Char) : Bool :=
  pyIsWordChar c || pyIsSpace c || isDevChar c

/-- The simple (single-character) case mapping of Python `str.lower`
on the modelled fragment: ASCII upper-case letters map to lower case,
everything else (including Devanagari, which has no case) is fixed. -/
def pyLowerChar (c : Char) : Char :=
  if 65 ≤ c.toNat ∧ c.toNat ≤ 90 then Char.ofNat (c.toNat + 32) else c

/-- Python `str.lower` of a single character, as a character list:
per Unicode SpecialCasing the letter U+0130 lower-cases to the TWO
characters U+0069 U+0307 (`i` followed by COMBINING DOT ABOVE); every
other character of the fragment follows the simple mapping. -/
def pyLowerExpand (c : Char) : List Char :=
  if c.toNat = 0x130 then ['i', Char.ofNat 0x307] else [pyLowerChar c]

/-- Python `str.upper` on the modelled fragment. -/
def pyUpperChar (c : Char) : Char :=
  if 97 ≤ c.toNat ∧ c.toNat ≤ 122 then Char.ofNat (c.toNat - 32) else c

/-- `re.sub` of the maximal runs of whitespace by a single space, from
`normalize_whitespace` in `nlp.py`.  The flag records whether the
current position is inside a run whose replacement space was already
emitted. -/
def squeezeAux : Bool → List Char → List Char
  | _, [] => []
  | b, c :: rest =>
    if pyIsSpace c then
      if b then squeezeAux true rest else ' ' :: squeezeAux true rest
    else c :: squeezeAux false rest

/-- Python `str.strip`: drop whitespace from both ends. -/
def pyStrip (l : List Char) : List Char :=
  (((l.dropWhile pyIsSpace).reverse).dropWhile pyIsSpace).reverse

/-- `to_nfc` in `nlp.py` wraps `unicodedata.normalize("NFC", text or
"")`.  NFC is modelled as the identity, which is exact on ASCII, on
U+0130 (a composition that NFC keeps), and on Devanagari text that
avoids the composition-exclusion points U+0958 to U+095F (which NFC
would decompose). -/
def to_nfc (s : String) : String := s

/-- `normalize_whitespace` in `nlp.py`:
`re.sub(r"\s+", " ", text or "").strip()`. -/
def normalize_whitespace (s : String) : String :=
  ⟨pyStrip (squeezeAux false s.data)⟩

/-- `normalize_punct` in `nlp.py`:
`re.sub(r"[^\w\sऀ-ॿ]", " ", text or "")`. -/
def normalize_punct (s : String) : String :=
  ⟨s.data.map (fun c => if keepChar c then c else ' ')⟩

/-- Python `str.lower` on whole strings: each character is lower-cased
with full (possibly multi-character) case mapping and the results are
concatenated. -/
def lowerStr (s : String) : String :=
  ⟨(s.data.map pyLowerExpand).flatten⟩

/-- `normalize_name` in `nlp.py`: empty (or absent) input maps to the
empty string; otherwise NFC, punctuation stripping, whitespace folding
and lower-casing are applied in that order. -/
def normalize_name (raw : String) : String :=
  if raw = "" then ""
  else lowerStr (normalize_whitespace (normalize_punct (to_nfc raw)))

/-- `is_devanagari` in `nlp.py`: some character lies in the Devanagari
block (the empty string has none). -/
def is_devanagari (s : String) : Bool :=
  s.data.any isDevChar

/-- `detect_language` in `nlp.py`. -/
def detect_language (s : String) : String :=
  if is_devanagari s then "devanagari" else "latin"

/-- `canonicalize_pan` in `nlp.py`: empty input maps to the empty
string, otherwise all whitespace is removed and the rest upper-cased. -/
def canonicalize_pan (pan : String) : String :=
  if pan = "" then ""
  else ⟨(pan.data.filter (fun c => !pyIsSpace c)).map pyUpperChar⟩

example : normalize_name "  Hello,   World!  " = "hello world" := by decide
example : normalize_name "a_b" = "a_b" := by decide
example : normalize_name "" = "" := by decide
example : canonicalize_pan "abcde 1234f" = "ABCDE1234F" := by decide

/-- The external pure libraries the pipeline calls: `rapidfuzz.fuzz.
token_set_ratio` (an integer score), `phonetics.dmetaphone` (primary
and secondary code) and the DEVANAGARI to ITRANS transliteration of
`indic_transliteration.sanscript`. -/
structure Ext where
  token_set_ratio : String → String → Nat
  dmetaphone : String → String × String
  itrans : String → String

/-- Python `x or y` on strings: `x` when non-empty, else `y`. -/
def strOr (a b : String) : String :=
  if a ≠ "" then a else b

/-- `devanagari_to_latin` in `nlp.py`: empty input maps to the empty
string, otherwise the ITRANS transliteration is applied. -/
def devanagari_to_latin (ext : Ext) (s : String) : String :=
  if s = "" then "" else ext.itrans s

/-- `english_phonetic_key` in `nlp.py`: `p, s = dmetaphone(text or "")`
then `p or s or ""`. -/
def english_phonetic_key (ext : Ext) (s : String) : String :=
  let pr := ext.dmetaphone (strOr s "")
  strOr pr.1 (strOr pr.2 "")

/-- `marathi_phonetic_key` in `nlp.py`: transliterate to Latin, then
dmetaphone, then `p or s or ""`. -/
def marathi_phonetic_key (ext : Ext) (s : String) : String :=
  let latin := devanagari_to_latin ext s
  let pr := ext.dmetaphone (strOr latin "")
  strOr pr.1 (strOr pr.2 "")

/-- `phonetic_key` in `nlp.py`: empty input yields the empty string;
otherwise route on the detected script. -/
def phonetic_key (ext : Ext) (s : String) : String :=
  if s = "" then ""
  else if detect_language s = "devanagari" then marathi_phonetic_key ext s
  else english_phonetic_key ext s

/-- `fuzzy_name_score` in `nlp.py`: `int(fuzz.token_set_ratio(a, b))`. -/
def fuzzy_name_score (ext : Ext) (a b : String) : Nat :=
  ext.token_set_ratio a b

/-- `fuzzy_address_score` in `nlp.py`: the same token-set ratio. -/
def fuzzy_address_score (ext : Ext) (a b : String) : Nat :=
  ext.token_set_ratio a b

/-- Does `needle` occur at the head of `hay`?  (Model of one position
of Python substring search.) -/
def leadMatch : List Char → List Char → Bool
  | [], _ => true
  | _ :: _, [] => false
  | a :: as, b :: bs => a == b && leadMatch as bs

/-- Python `needle in hay` on strings: `needle` occurs contiguously in
`hay`. -/
def hasSub (needle hay : List Char) : Bool :=
  match hay with
  | [] => needle.isEmpty
  | _ :: rest => leadMatch needle hay || hasSub needle rest

/-- Modelled from the spec: `config.py` (imported by `search.py` as
`THRESHOLDS` and `SEARCH`) is not among the sources.  Per the spec all
four thresholds, the mobile-requirement flag and the two limits are
externally supplied configuration. -/
structure Config where
  name_strict : Nat
  name_medium : Nat
  name_loose : Nat
  address_loose : Nat
  mobile_exact_required : Bool
  candidate_limit : Nat
  limit_return_rows : Nat

/-- A ledger row projected to the five columns the core reads:
`name_norm`, `name_phonetic`, `address`, `mobile`, `pan_upper`. -/
structure Row where
  name_norm : String
  name_phonetic : String
  address : String
  mobile : String
  pan_upper : String
deriving DecidableEq, Repr

/-- The DuckDB data source: the `transactions` table together with the
capability flags `_get_table_columns` discovers (whether the optional
columns exist).  `name_norm` and `pan_upper` are treated as always
present, which the queries of `search.py` require. -/
structure DB where
  table : List Row
  hasPhonetic : Bool
  hasAddress : Bool
  hasMobile : Bool
deriving Repr

/-- The `''`-defaulted projection used in the SELECT lists of
`search.py`: a column missing from the schema is replaced by the empty
string. -/
def projectRow (db : DB) (phonReal : Bool) (r : Row) : Row :=
  { name_norm := r.name_norm
    name_phonetic := if phonReal then r.name_phonetic else ""
    address := if db.hasAddress then r.address else ""
    mobile := if db.hasMobile then r.mobile else ""
    pan_upper := r.pan_upper }

/-- Order-preserving deduplication (first occurrences), modelling the
conversion of a Python set built from a list back to a list; only the
membership of the result is ever consumed downstream. -/
def dedupAcc (seen : List String) : List String → List String
  | [] => []
  | x :: xs =>
    if x ∈ seen then dedupAcc seen xs else x :: dedupAcc (x :: seen) xs

def dedup (l : List String) : List String := dedupAcc [] l

/-- The ranking key of `Counter.most_common`: more frequent first and,
among equally frequent names, the one first seen in `ns` first.  On the
distinct names of `ns` this total relation coincides with the stable
descending-by-count sort `most_common` performs. -/
def rankLE (ns : List String) (a b : String) : Bool :=
  decide (ns.count b < ns.count a) ||
    (decide (ns.count a = ns.count b) && decide (ns.indexOf a ≤ ns.indexOf b))

/-- Insert `x` into `l` in front of the first element it ranks at or
above. -/
def insertRanked (le : String → String → Bool) (x : String) :
    List String → List String
  | [] => [x]
  | y :: ys => if le x y then x :: y :: ys else y :: insertRanked le x ys

/-- Insertion sort by a total ranking. -/
def sortRanked (le : String → String → Bool) (l : List String) :
    List String :=
  l.foldr (insertRanked le) []

/-- `pick_canonical_names` in `search.py`.  The argument is the list of
`name_norm` components of the row 1-tuples (a row tuple itself is
always truthy, so the comprehension filter keeps exactly the non-empty
names).  `Counter` counts the non-empty names and `most_common(3)`
returns the distinct names, in first-insertion order among equal
counts, sorted by descending count and truncated to three. -/
def pick_canonical_names (names : List String) : List String :=
  let ns := names.filter (fun n => n ≠ "")
  (sortRanked (rankLE ns) (dedup ns)).take 3

/-- `fetch_rows_for_pan` in `search.py`: the rows whose `pan_upper`
equals the canonicalized PAN, with missing optional columns defaulted
to the empty string in the projection. -/
def fetch_rows_for_pan (db : DB) (pan : String) : List Row :=
  (db.table.filter (fun r => r.pan_upper == canonicalize_pan pan)).map
    (projectRow db db.hasPhonetic)

/-- `candidate_block_by_names` in `search.py`.  The second component
counts the data queries issued against the `transactions` table (the
schema introspection is the capability flags of `DB`).  With a phonetic
column, the distinct phonetic keys of the non-empty names are the
blocking keys; otherwise exact `name_norm` blocking is the fallback.
An empty key set short-circuits to an empty candidate list with no
query.  The SQL `LIMIT` caps the filtered scan. -/
def candidate_block_by_names (ext : Ext) (cfg : Config) (db : DB)
    (names : List String) : List Row × Nat :=
  if db.hasPhonetic then
    let keys := dedup ((names.filter (fun n => n ≠ "")).map (phonetic_key ext))
    if keys = [] then ([], 0)
    else
      (((db.table.filter (fun r => keys.contains r.name_phonetic)).take
          cfg.candidate_limit).map (projectRow db true), 1)
  else
    let norms := dedup ((names.filter (fun n => n ≠ "")).map normalize_name)
    if norms = [] then ([], 0)
    else
      (((db.table.filter (fun r => norms.contains r.name_norm)).take
          cfg.candidate_limit).map (projectRow db false), 1)

/-- The `max((...), default=0)` of the name scores against all base
names in `verify_candidate`; for the nonnegative scores the fold from
zero agrees with Python `max` with default 0. -/
def bestNameScore (ext : Ext) (base_names : List String) (name : String) :
    Nat :=
  (base_names.map (fun b => fuzzy_name_score ext name b)).foldl max 0

/-- `verify_candidate` in `search.py`.  A candidate with an empty
normalized name is rejected; otherwise the best name score is compared
against the strict, medium and loose tiers; in the loose tier the
candidate needs either its address scored against itself to reach the
loose address threshold, or mobile corroboration (vacuous when the
configuration does not require mobile matching, else the mobile must be
non-empty and occur in itself, `row[3]` being the mobile column). -/
def verify_candidate (ext : Ext) (cfg : Config) (base_names : List String)
    (row : Row) : Bool :=
  if row.name_norm = "" then false
  else
    let best := bestNameScore ext base_names row.name_norm
    if cfg.name_strict ≤ best then true
    else if cfg.name_medium ≤ best then true
    else if cfg.name_loose ≤ best then
      let address_scores :=
        [fuzzy_address_score ext (strOr row.address "") (strOr row.address "")]
      let addr_ok := decide (cfg.address_loose ≤ address_scores.foldl max 0)
      let mobile_ok :=
        if !cfg.mobile_exact_required then true
        else decide (row.mobile ≠ "") &&
          hasSub row.mobile.data (strOr row.mobile "").data
      addr_ok || mobile_ok
    else false

/-- `expand_all_transactions_for_entities` in `search.py`: canonicalize
the non-empty PANs, deduplicate the non-empty names, and return the
rows whose `pan_upper` is among the former or whose `name_norm` is
among the latter.  When both lists are empty the WHERE clause is the
literal `1=0`, which membership in the empty lists models exactly.  A
truthy (non-zero) `limit_return_rows` appends a `LIMIT`. -/
def expand_all_transactions_for_entities (cfg : Config) (db : DB)
    (pans names : List String) : List Row :=
  let pans2 := (pans.filter (fun p => p ≠ "")).map canonicalize_pan
  let names2 := dedup (names.filter (fun n => n ≠ ""))
  let rows := db.table.filter
    (fun r => pans2.contains r.pan_upper || names2.contains r.name_norm)
  if cfg.limit_return_rows ≠ 0 then rows.take cfg.limit_return_rows else rows

/-- `search_by_pan` in `search.py`. -/
def search_by_pan (ext : Ext) (cfg : Config) (db : DB) (pan : String) :
    List Row :=
  let base_rows := fetch_rows_for_pan db pan
  if base_rows = [] then []
  else
    let base_names := pick_canonical_names (base_rows.map (·.name_norm))
    let candidates := (candidate_block_by_names ext cfg db base_names).1
    let verified := candidates.filter (verify_candidate ext cfg base_names)
    let all_pans :=
      dedup ((base_rows.filter (fun r => r.pan_upper ≠ "")).map (·.pan_upper))
    let all_names :=
      dedup ((base_rows.filter (fun r => r.name_norm ≠ "")).map (·.name_norm)
        ++ verified.map (·.name_norm))
    expand_all_transactions_for_entities cfg db all_pans all_names

/-- `search_by_seed_name` in `search.py`. -/
def search_by_seed_name (ext : Ext) (cfg : Config) (db : DB)
    (seed_name : String) : List Row :=
  let seed_norm := normalize_name seed_name
  let base_names := [seed_norm]
  let candidates := (candidate_block_by_names ext cfg db base_names).1
  let verified := candidates.filter (verify_candidate ext cfg base_names)
  let all_names := dedup (verified.map (·.name_norm) ++ [seed_norm])
  let pans := (verified.filter (fun r => r.pan_upper ≠ "")).map (·.pan_upper)
  expand_all_transactions_for_entities cfg db pans all_names

/-- A sample external-library record used to instantiate theorems at
concrete inputs: a token-set ratio that returns the constant score 70,
a dmetaphone whose primary code is the input itself, and the identity
transliteration. -/
def extSample : Ext :=
  { token_set_ratio := fun _ _ => 70
    dmetaphone := fun s => (s, "")
    itrans := fun s => s }

/-- A sample configuration with the tiers 90 / 80 / 60, address-loose
70, mobile matching not required, candidate limit 10 and row cap 100. -/
def cfgSample : Config :=
  { name_strict := 90
    name_medium := 80
    name_loose := 60
    address_loose := 70
    mobile_exact_required := false
    candidate_limit := 10
    limit_return_rows := 100 }

/-- A sample data source with one ledger row and the full schema. -/
def dbSample : DB :=
  { table := [⟨"john doe", "JN", "12 main st", "9999", "ABCDE1234F"⟩]
    hasPhonetic := true
    hasAddress := true
    hasMobile := true }

/-- Letters and digits on the modelled fragment (the letter and digit
part of the character class named by the normalization claim): the
ASCII letters and digits together with the letter U+0130. -/
def letterOrDigitChar (c : Char) : Bool :=
  (decide (65 ≤ c.toNat) && decide (c.toNat ≤ 90)) ||
  (decide (97 ≤ c.toNat) && decide (c.toNat ≤ 122)) ||
  (decide (48 ≤ c.toNat) && decide (c.toNat ≤ 57)) ||
  c.toNat = 0x130

/-- The normalization pipeline exactly as the claim words it: NFC, then
every character that is not a letter, digit, whitespace or Devanagari
code point replaced by a space (note: no underscore), then whitespace
folding and trimming, then lower-casing. -/
def claimed_normalize_name (raw : String) : String :=
  if raw = "" then ""
  else lowerStr (normalize_whitespace
    ⟨(to_nfc raw).data.map (fun c =>
      if letterOrDigitChar c || pyIsSpace c || isDevChar c then c
      else ' ')⟩)

/-- The claimed pipeline amended minimally: the replaced class also
spares the underscore (code point 95), since the source regex keeps
the whole of `\w`. -/
def amended_normalize_name (raw : String) : String :=
  if raw = "" then ""
  else lowerStr (normalize_whitespace
    ⟨(to_nfc raw).data.map (fun c =>
      if letterOrDigitChar c || c.toNat = 95 || pyIsSpace c || isDevChar c
      then c else ' ')⟩)

/-- The character-list core of `normalize_name` on non-empty input:
punctuation replacement, whitespace folding with strip, then full
lower-casing. -/
def nnCore (l : List Char) : List Char :=
  ((pyStrip (squeezeAux false
    (l.map (fun c => if keepChar c then c else ' ')))).map pyLowerExpand).flatten

/-- The same core with the simple (single-character) case mapping; it
agrees with `nnCore` on inputs without U+0130 and carries the
idempotence argument. -/
def nnCoreA (l : List Char) : List Char :=
  (pyStrip (squeezeAux false
    (l.map (fun c => if keepChar c then c else ' ')))).map pyLowerChar

/-! ## Helper lemmas -/

theorem strOr_empty_right (s : String) : strOr s "" = s := by
  unfold strOr
  split <;> simp_all

theorem filter_ne_nil_of_all_empty {l : List String}
    (h : ∀ n ∈ l, n = "") : l.filter (fun n => n ≠ "") = [] := by
  induction l with
  | nil => rfl
  | cons x xs ih =>
    have hx : x = "" := h x (by simp)
    simp only [List.filter_cons, hx]
    simpa using ih (fun n hn => h n (by simp [hn]))

theorem insertRanked_perm (le : String → String → Bool) (x : String)
    (l : List String) : List.Perm (insertRanked le x l) (x :: l) := by
  induction l with
  | nil => exact List.Perm.refl _
  | cons y ys ih =>
    unfold insertRanked
    split
    · exact List.Perm.refl _
    · exact (List.Perm.cons y ih).trans (List.Perm.swap x y ys)

theorem sortRanked_perm (le : String → String → Bool) (l : List String) :
    List.Perm (sortRanked le l) l := by
  induction l with
  | nil => exact List.Perm.refl _
  | cons x xs ih =>
    unfold sortRanked at *
    simp only [List.foldr_cons]
    exact (insertRanked_perm le x _).trans (List.Perm.cons x ih)

theorem pairwise_insertRanked (le : String → String → Bool)
    (htot : ∀ a b, le a b = true ∨ le b a = true)
    (htrans : ∀ a b c, le a b = true → le b c = true → le a c = true)
    (x : String) (l : List String)
    (h : l.Pairwise (fun a b => le a b = true)) :
    (insertRanked le x l).Pairwise (fun a b => le a b = true) := by
  induction l with
  | nil => simp [insertRanked]
  | cons y ys ih =>
    rcases List.pairwise_cons.mp h with ⟨hy, hys⟩
    unfold insertRanked
    by_cases hxy : le x y = true
    · rw [if_pos hxy]
      refine List.pairwise_cons.mpr ⟨?_, h⟩
      intro z hz
      rcases List.mem_cons.mp hz with rfl | hz
      · exact hxy
      · exact htrans x y z hxy (hy z hz)
    · rw [if_neg hxy]
      refine List.pairwise_cons.mpr ⟨?_, ih hys⟩
      intro z hz
      rcases List.mem_cons.mp ((insertRanked_perm le x ys).mem_iff.mp hz) with
        rfl | hz
      · rcases htot z y with hzy | hyz
        · exact absurd hzy hxy
        · exact hyz
      · exact hy z hz

theorem pairwise_sortRanked (le : String → String → Bool)
    (htot : ∀ a b, le a b = true ∨ le b a = true)
    (htrans : ∀ a b c, le a b = true → le b c = true → le a c = true)
    (l : List String) :
    (sortRanked le l).Pairwise (fun a b => le a b = true) := by
  induction l with
  | nil => simp [sortRanked]
  | cons x xs ih =>
    unfold sortRanked at *
    simp only [List.foldr_cons]
    exact pairwise_insertRanked le htot htrans x _ ih

theorem rankLE_iff (ns : List String) (a b : String) :
    rankLE ns a b = true ↔
      (ns.count b < ns.count a ∨
        (ns.count a = ns.count b ∧ ns.indexOf a ≤ ns.indexOf b)) := by
  simp [rankLE]

theorem rankLE_total (ns : List String) (a b : String) :
    rankLE ns a b = true ∨ rankLE ns b a = true := by
  rw [rankLE_iff, rankLE_iff]
  omega

theorem rankLE_trans (ns : List String) (a b c : String)
    (hab : rankLE ns a b = true) (hbc : rankLE ns b c = true) :
    rankLE ns a c = true := by
  rw [rankLE_iff] at *
  omega

theorem dedupAcc_sound (l : List String) :
    ∀ seen a, a ∈ dedupAcc seen l → a ∈ l ∧ a ∉ seen := by
  induction l with
  | nil => intro seen a ha; simp [dedupAcc] at ha
  | cons x xs ih =>
    intro seen a ha
    unfold dedupAcc at ha
    by_cases hx : x ∈ seen
    · rw [if_pos hx] at ha
      rcases ih seen a ha with ⟨h1, h2⟩
      exact ⟨List.mem_cons_of_mem x h1, h2⟩
    · rw [if_neg hx] at ha
      rcases List.mem_cons.mp ha with rfl | ha
      · exact ⟨List.mem_cons_self a xs, hx⟩
      · rcases ih (x :: seen) a ha with ⟨h1, h2⟩
        exact ⟨List.mem_cons_of_mem x h1,
          fun hs => h2 (List.mem_cons_of_mem x hs)⟩

theorem dedupAcc_nodup (l : List String) :
    ∀ seen, (dedupAcc seen l).Nodup := by
  induction l with
  | nil => intro seen; simp [dedupAcc]
  | cons x xs ih =>
    intro seen
    unfold dedupAcc
    by_cases hx : x ∈ seen
    · rw [if_pos hx]; exact ih seen
    · rw [if_neg hx]
      refine List.nodup_cons.mpr ⟨?_, ih (x :: seen)⟩
      intro hmem
      exact (dedupAcc_sound xs (x :: seen) x hmem).2 (List.mem_cons_self x seen)

theorem toNat_ofNat_of_lt {n : Nat} (h : n < 0xd800) :
    (Char.ofNat n).toNat = n := by
  rw [Char.ofNat, dif_pos (Or.inl h)]
  rfl

theorem toNat_pyLowerChar (c : Char) :
    (pyLowerChar c).toNat =
      if 65 ≤ c.toNat ∧ c.toNat ≤ 90 then c.toNat + 32 else c.toNat := by
  unfold pyLowerChar
  split
  · next h => exact toNat_ofNat_of_lt (by omega)
  · rfl

theorem pyLowerChar_fix (c : Char)
    (h : ¬(65 ≤ c.toNat ∧ c.toNat ≤ 90)) : pyLowerChar c = c :=
  if_neg h

theorem pyLowerChar_idem (c : Char) :
    pyLowerChar (pyLowerChar c) = pyLowerChar c := by
  by_cases hr : 65 ≤ c.toNat ∧ c.toNat ≤ 90
  · have ht := toNat_pyLowerChar c
    rw [if_pos hr] at ht
    exact pyLowerChar_fix _ (by omega)
  · rw [pyLowerChar_fix c hr, pyLowerChar_fix c hr]

theorem pyIsSpace_pyLowerChar (c : Char) :
    pyIsSpace (pyLowerChar c) = pyIsSpace c := by
  rw [Bool.eq_iff_iff]
  simp only [pyIsSpace, Bool.or_eq_true, decide_eq_true_eq]
  have ht := toNat_pyLowerChar c
  by_cases hr : 65 ≤ c.toNat ∧ c.toNat ≤ 90
  · rw [if_pos hr] at ht
    rw [ht]
    omega
  · rw [if_neg hr] at ht
    rw [ht]

theorem keepChar_pyLowerChar (c : Char) :
    keepChar (pyLowerChar c) = keepChar c := by
  rw [Bool.eq_iff_iff]
  simp only [keepChar, pyIsWordChar, pyIsSpace, isDevChar, Bool.or_eq_true,
    Bool.and_eq_true, decide_eq_true_eq]
  have ht := toNat_pyLowerChar c
  by_cases hr : 65 ≤ c.toNat ∧ c.toNat ≤ 90
  · rw [if_pos hr] at ht
    rw [ht]
    omega
  · rw [if_neg hr] at ht
    rw [ht]

theorem mem_squeezeAux (l : List Char) :
    ∀ b c, c ∈ squeezeAux b l → c = ' ' ∨ c ∈ l := by
  induction l with
  | nil => intro b c h; simp [squeezeAux] at h
  | cons x rest ih =>
    intro b c h
    unfold squeezeAux at h
    by_cases hsp : pyIsSpace x = true
    · rw [if_pos hsp] at h
      cases b with
      | true =>
        rcases ih true c h with h1 | h1
        · exact Or.inl h1
        · exact Or.inr (List.mem_cons_of_mem x h1)
      | false =>
        rw [if_neg Bool.false_ne_true] at h
        rcases List.mem_cons.mp h with rfl | h1
        · exact Or.inl rfl
        · rcases ih true c h1 with h2 | h2
          · exact Or.inl h2
          · exact Or.inr (List.mem_cons_of_mem x h2)
    · rw [if_neg hsp] at h
      rcases List.mem_cons.mp h with rfl | h1
      · exact Or.inr (List.mem_cons_self c rest)
      · rcases ih false c h1 with h2 | h2
        · exact Or.inl h2
        · exact Or.inr (List.mem_cons_of_mem x h2)

theorem mem_squeezeAux_space (l : List Char) :
    ∀ b c, c ∈ squeezeAux b l → pyIsSpace c = true → c = ' ' := by
  induction l with
  | nil => intro b c h; simp [squeezeAux] at h
  | cons x rest ih =>
    intro b c h hsp
    unfold squeezeAux at h
    by_cases hx : pyIsSpace x = true
    · rw [if_pos hx] at h
      cases b with
      | true => exact ih true c h hsp
      | false =>
        rw [if_neg Bool.false_ne_true] at h
        rcases List.mem_cons.mp h with rfl | h1
        · rfl
        · exact ih true c h1 hsp
    · rw [if_neg hx] at h
      rcases List.mem_cons.mp h with rfl | h1
      · exact absurd hsp (by simp [hx])
      · exact ih false c h1 hsp

theorem squeezeAux_true_head (l : List Char) :
    ∀ c t, squeezeAux true l = c :: t → pyIsSpace c = false := by
  induction l with
  | nil => intro c t h; simp [squeezeAux] at h
  | cons x rest ih =>
    intro c t h
    unfold squeezeAux at h
    by_cases hx : pyIsSpace x = true
    · rw [if_pos hx, if_pos rfl] at h
      exact ih c t h
    · rw [if_neg hx] at h
      rcases List.cons.injEq .. ▸ h with ⟨rfl, -⟩
      simpa using hx

theorem headNot_dropWhile (l : List Char) :
    ∀ c ∈ (l.dropWhile pyIsSpace).head?, pyIsSpace c = false := by
  induction l with
  | nil => intro c hc; simp at hc
  | cons x t ih =>
    intro c hc
    rw [List.dropWhile_cons] at hc
    by_cases hx : pyIsSpace x = true
    · rw [if_pos hx] at hc
      exact ih c hc
    · rw [if_neg hx] at hc
      simp only [List.head?_cons, Option.mem_def, Option.some.injEq] at hc
      subst hc
      simpa using hx

theorem dropWhile_space_fix (m : List Char)
    (h : ∀ c ∈ m.head?, pyIsSpace c = false) :
    m.dropWhile pyIsSpace = m := by
  cases m with
  | nil => rfl
  | cons x t =>
    rw [List.dropWhile_cons, if_neg]
    simp [h x rfl]

theorem pyStrip_fix (m : List Char)
    (h1 : ∀ c ∈ m.head?, pyIsSpace c = false)
    (h2 : ∀ c ∈ m.reverse.head?, pyIsSpace c = false) :
    pyStrip m = m := by
  unfold pyStrip
  rw [dropWhile_space_fix m h1, dropWhile_space_fix m.reverse h2,
    List.reverse_reverse]

theorem headNot_of_pre {u z s : List Char}
    (hu : ∀ c ∈ u.head?, pyIsSpace c = false) (heq : u = z ++ s) :
    ∀ c ∈ z.head?, pyIsSpace c = false := by
  intro c hc
  cases z with
  | nil => simp at hc
  | cons x t =>
    simp only [List.head?_cons, Option.mem_def, Option.some.injEq] at hc
    subst hc
    apply hu
    rw [heq]
    rfl

theorem headNot_pyStrip (m : List Char) :
    ∀ c ∈ (pyStrip m).head?, pyIsSpace c = false := by
  obtain ⟨t, ht⟩ :=
    List.dropWhile_suffix (l := (m.dropWhile pyIsSpace).reverse) pyIsSpace
  have hu : m.dropWhile pyIsSpace = pyStrip m ++ t.reverse := by
    calc m.dropWhile pyIsSpace
        = ((m.dropWhile pyIsSpace).reverse).reverse :=
          (List.reverse_reverse _).symm
      _ = (t ++
            ((m.dropWhile pyIsSpace).reverse).dropWhile pyIsSpace).reverse :=
          by rw [ht]
      _ = pyStrip m ++ t.reverse := by rw [List.reverse_append]; rfl
  exact headNot_of_pre (headNot_dropWhile m) hu

theorem headNot_pyStrip_reverse (m : List Char) :
    ∀ c ∈ (pyStrip m).reverse.head?, pyIsSpace c = false := by
  unfold pyStrip
  rw [List.reverse_reverse]
  exact headNot_dropWhile _

theorem chain_squeezeAux (l : List Char) :
    List.Chain' (fun a b : Char => pyIsSpace a = true → pyIsSpace b = false)
      (squeezeAux true l) ∧
    List.Chain' (fun a b : Char => pyIsSpace a = true → pyIsSpace b = false)
      (squeezeAux false l) := by
  induction l with
  | nil => exact ⟨List.chain'_nil, List.chain'_nil⟩
  | cons x rest ih =>
    by_cases hx : pyIsSpace x = true
    · have h1 : squeezeAux true (x :: rest) = squeezeAux true rest := by
        simp [squeezeAux, hx]
      have h2 : squeezeAux false (x :: rest) = ' ' :: squeezeAux true rest := by
        simp [squeezeAux, hx]
      refine ⟨h1 ▸ ih.1, h2 ▸ ?_⟩
      rw [List.chain'_cons']
      refine ⟨?_, ih.1⟩
      intro y hy _
      cases hsq : squeezeAux true rest with
      | nil => rw [hsq] at hy; simp at hy
      | cons c t =>
        rw [hsq] at hy
        simp only [List.head?_cons, Option.mem_def, Option.some.injEq] at hy
        subst hy
        exact squeezeAux_true_head rest _ _ hsq
    · have h1 : squeezeAux true (x :: rest) = x :: squeezeAux false rest := by
        simp [squeezeAux, hx]
      have h2 : squeezeAux false (x :: rest) = x :: squeezeAux false rest := by
        simp [squeezeAux, hx]
      have hc : List.Chain'
          (fun a b : Char => pyIsSpace a = true → pyIsSpace b = false)
          (x :: squeezeAux false rest) := by
        rw [List.chain'_cons']
        refine ⟨?_, ih.2⟩
        intro y _ hxsp
        exact absurd hxsp (by simp [hx])
      exact ⟨h1 ▸ hc, h2 ▸ hc⟩

theorem chain_space_reverse {m : List Char}
    (h : List.Chain' (fun a b : Char => pyIsSpace a = true → pyIsSpace b = false)
      m) :
    List.Chain' (fun a b : Char => pyIsSpace a = true → pyIsSpace b = false)
      m.reverse := by
  rw [List.chain'_reverse]
  refine h.imp ?_
  intro a b hab hb
  by_cases ha : pyIsSpace a = true
  · exact absurd hb (by simp [hab ha])
  · simpa using ha

theorem chain_space_pyStrip {m : List Char}
    (h : List.Chain' (fun a b : Char => pyIsSpace a = true → pyIsSpace b = false)
      m) :
    List.Chain' (fun a b : Char => pyIsSpace a = true → pyIsSpace b = false)
      (pyStrip m) := by
  unfold pyStrip
  exact chain_space_reverse
    (((chain_space_reverse
      (h.suffix (List.dropWhile_suffix _))).suffix (List.dropWhile_suffix _)))

theorem squeezeAux_fix (m : List Char)
    (hblank : ∀ c ∈ m, pyIsSpace c = true → c = ' ')
    (hchain : List.Chain'
      (fun a b : Char => pyIsSpace a = true → pyIsSpace b = false) m) :
    squeezeAux false m = m ∧
      ((∀ c ∈ m.head?, pyIsSpace c = false) → squeezeAux true m = m) := by
  induction m with
  | nil => exact ⟨rfl, fun _ => rfl⟩
  | cons x rest ih =>
    have hblank2 : ∀ c ∈ rest, pyIsSpace c = true → c = ' ' :=
      fun c hc => hblank c (List.mem_cons_of_mem x hc)
    have hchain2 := hchain.tail
    have ihr := ih hblank2 hchain2
    by_cases hx : pyIsSpace x = true
    · have hx2 : x = ' ' := hblank x (List.mem_cons_self x rest) hx
      have hrest : ∀ c ∈ rest.head?, pyIsSpace c = false := by
        intro c hc
        cases rest with
        | nil => simp at hc
        | cons d t =>
          simp only [List.head?_cons, Option.mem_def, Option.some.injEq] at hc
          subst hc
          exact (List.chain'_cons.mp hchain).1 hx
      constructor
      · show squeezeAux false (x :: rest) = x :: rest
        unfold squeezeAux
        rw [if_pos hx, if_neg Bool.false_ne_true, ihr.2 hrest, hx2]
      · intro hhead
        exact absurd (hhead x rfl) (by simp [hx])
    · constructor
      · unfold squeezeAux
        rw [if_neg hx, ihr.1]
      · intro _
        unfold squeezeAux
        rw [if_neg hx, ihr.1]

theorem mem_pyStrip {m : List Char} {c : Char} (h : c ∈ pyStrip m) :
    c ∈ m := by
  unfold pyStrip at h
  rw [List.mem_reverse] at h
  have h2 := (List.dropWhile_sublist _).subset h
  rw [List.mem_reverse] at h2
  exact (List.dropWhile_sublist _).subset h2

theorem mem_nnCoreA_keep (l : List Char) :
    ∀ c ∈ nnCoreA l, keepChar c = true := by
  intro c hc
  unfold nnCoreA at hc
  rcases List.mem_map.mp hc with ⟨d, hd, rfl⟩
  rw [keepChar_pyLowerChar]
  have hd2 := mem_pyStrip hd
  rcases mem_squeezeAux _ false d hd2 with rfl | hd3
  · decide
  · rcases List.mem_map.mp hd3 with ⟨e, _, rfl⟩
    by_cases hk : keepChar e = true
    · rw [if_pos hk]; exact hk
    · rw [if_neg hk]; decide

theorem map_keep_fix (m : List Char) (h : ∀ c ∈ m, keepChar c = true) :
    m.map (fun c => if keepChar c then c else ' ') = m := by
  induction m with
  | nil => rfl
  | cons x t ih =>
    simp only [List.map_cons]
    rw [if_pos (h x (List.mem_cons_self x t)),
      ih (fun c hc => h c (List.mem_cons_of_mem x hc))]

theorem blank_nnCoreA (l : List Char) :
    ∀ c ∈ nnCoreA l, pyIsSpace c = true → c = ' ' := by
  intro c hc hsp
  unfold nnCoreA at hc
  rcases List.mem_map.mp hc with ⟨d, hd, rfl⟩
  rw [pyIsSpace_pyLowerChar] at hsp
  have hd2 : d = ' ' := mem_squeezeAux_space _ false d (mem_pyStrip hd) hsp
  subst hd2
  decide

theorem chain_nnCoreA (l : List Char) :
    List.Chain' (fun a b : Char => pyIsSpace a = true → pyIsSpace b = false)
      (nnCoreA l) := by
  unfold nnCoreA
  exact List.chain'_map_of_chain' pyLowerChar
    (fun a b hab => by
      rw [pyIsSpace_pyLowerChar, pyIsSpace_pyLowerChar]
      exact hab)
    (chain_space_pyStrip (chain_squeezeAux _).2)

theorem headNot_nnCoreA (l : List Char) :
    ∀ c ∈ (nnCoreA l).head?, pyIsSpace c = false := by
  intro c hc
  unfold nnCoreA at hc
  rw [List.head?_map] at hc
  cases hs : (pyStrip (squeezeAux false
      (l.map fun c => if keepChar c then c else ' '))).head? with
  | none => rw [hs] at hc; simp at hc
  | some d =>
    rw [hs] at hc
    have hc2 : pyLowerChar d = c := by simpa using hc
    subst hc2
    rw [pyIsSpace_pyLowerChar]
    exact headNot_pyStrip _ d (by rw [hs]; rfl)

theorem headNot_reverse_nnCoreA (l : List Char) :
    ∀ c ∈ (nnCoreA l).reverse.head?, pyIsSpace c = false := by
  intro c hc
  unfold nnCoreA at hc
  rw [← List.map_reverse, List.head?_map] at hc
  cases hs : ((pyStrip (squeezeAux false
      (l.map fun c => if keepChar c then c else ' '))).reverse).head? with
  | none => rw [hs] at hc; simp at hc
  | some d =>
    rw [hs] at hc
    have hc2 : pyLowerChar d = c := by simpa using hc
    subst hc2
    rw [pyIsSpace_pyLowerChar]
    exact headNot_pyStrip_reverse _ d (by rw [hs]; rfl)

theorem map_lower_nnCoreA (l : List Char) :
    (nnCoreA l).map pyLowerChar = nnCoreA l := by
  unfold nnCoreA
  rw [List.map_map]
  congr 1
  funext c
  exact pyLowerChar_idem c

theorem nnCoreA_idem (l : List Char) : nnCoreA (nnCoreA l) = nnCoreA l := by
  have h1 : (nnCoreA l).map (fun c => if keepChar c then c else ' ') =
      nnCoreA l := map_keep_fix _ (mem_nnCoreA_keep l)
  have h2 : squeezeAux false (nnCoreA l) = nnCoreA l :=
    (squeezeAux_fix _ (blank_nnCoreA l) (chain_nnCoreA l)).1
  have h3 : pyStrip (nnCoreA l) = nnCoreA l :=
    pyStrip_fix _ (headNot_nnCoreA l) (headNot_reverse_nnCoreA l)
  calc nnCoreA (nnCoreA l)
      = (pyStrip (squeezeAux false ((nnCoreA l).map
          (fun c => if keepChar c then c else ' ')))).map pyLowerChar := rfl
    _ = (pyStrip (squeezeAux false (nnCoreA l))).map pyLowerChar := by rw [h1]
    _ = (pyStrip (nnCoreA l)).map pyLowerChar := by rw [h2]
    _ = (nnCoreA l).map pyLowerChar := by rw [h3]
    _ = nnCoreA l := map_lower_nnCoreA l

theorem normalize_name_data (raw : String) (h : raw ≠ "") :
    normalize_name raw = ⟨nnCore raw.data⟩ := by
  unfold normalize_name nnCore lowerStr normalize_whitespace normalize_punct
    to_nfc
  rw [if_neg h]

theorem pyLowerExpand_eq_single (c : Char) (h : c.toNat ≠ 0x130) :
    pyLowerExpand c = [pyLowerChar c] :=
  if_neg h

theorem flatten_map_pyLowerExpand (m : List Char)
    (h : ∀ c ∈ m, c.toNat ≠ 0x130) :
    (m.map pyLowerExpand).flatten = m.map pyLowerChar := by
  induction m with
  | nil => rfl
  | cons x t ih =>
    simp only [List.map_cons, List.flatten_cons]
    rw [pyLowerExpand_eq_single x (h x (List.mem_cons_self x t)),
      ih (fun c hc => h c (List.mem_cons_of_mem x hc))]
    rfl

theorem noSpecial_mid (l : List Char) (h : ∀ c ∈ l, c.toNat ≠ 0x130) :
    ∀ c ∈ pyStrip (squeezeAux false
      (l.map (fun c => if keepChar c then c else ' '))), c.toNat ≠ 0x130 := by
  intro c hc
  have hc2 := mem_pyStrip hc
  rcases mem_squeezeAux _ false c hc2 with rfl | hc3
  · decide
  · rcases List.mem_map.mp hc3 with ⟨e, he, rfl⟩
    by_cases hk : keepChar e = true
    · rw [if_pos hk]
      exact h e he
    · rw [if_neg hk]
      decide

theorem nnCore_eq_ascii (l : List Char) (h : ∀ c ∈ l, c.toNat ≠ 0x130) :
    nnCore l = nnCoreA l := by
  unfold nnCore nnCoreA
  exact flatten_map_pyLowerExpand _ (noSpecial_mid l h)

theorem noSpecial_nnCoreA (l : List Char) (h : ∀ c ∈ l, c.toNat ≠ 0x130) :
    ∀ c ∈ nnCoreA l, c.toNat ≠ 0x130 := by
  intro c hc
  unfold nnCoreA at hc
  rcases List.mem_map.mp hc with ⟨d, hd, rfl⟩
  have hd2 : d.toNat ≠ 0x130 := noSpecial_mid l h d hd
  have ht := toNat_pyLowerChar d
  by_cases hr : 65 ≤ d.toNat ∧ d.toNat ≤ 90
  · rw [if_pos hr] at ht
    omega
  · rw [if_neg hr] at ht
    omega

/-! ## Claims -/

/-- C5: for every seeded name list containing only empty strings (hence
an empty blocking key set), `candidate_block_by_names` returns an empty
candidate set and issues no data query, in both the phonetic and the
fallback blocking branch. -/
theorem candidate_block_empty_names (ext : Ext) (cfg : Config) (db : DB)
    (names : List String) (h : ∀ n ∈ names, n = "") :
    candidate_block_by_names ext cfg db names = ([], 0) := by
  unfold candidate_block_by_names
  rw [filter_ne_nil_of_all_empty h]
  cases db.hasPhonetic <;> simp [dedup, dedupAcc]

/-- Witness for C5 at the concrete seeded list `["", ""]`. -/
theorem candidate_block_empty_names_witness :
    (∀ n ∈ (["", ""] : List String), n = "") ∧
      candidate_block_by_names extSample cfgSample dbSample ["", ""] =
        ([], 0) :=
  ⟨by decide,
    candidate_block_empty_names extSample cfgSample dbSample ["", ""]
      (by decide)⟩

/-- C4: when every supplied PAN and every supplied name is the empty
string, closure expansion filters them all away, the WHERE clause
degenerates to the always-false predicate, and the result is empty. -/
theorem expand_empty_sets (cfg : Config) (db : DB) (pans names : List String)
    (hp : ∀ p ∈ pans, p = "") (hn : ∀ n ∈ names, n = "") :
    expand_all_transactions_for_entities cfg db pans names = [] := by
  unfold expand_all_transactions_for_entities
  rw [filter_ne_nil_of_all_empty hp, filter_ne_nil_of_all_empty hn]
  simp [dedup, dedupAcc]

/-- Witness for C4 at the concrete input `[""]`, `["", ""]`. -/
theorem expand_empty_sets_witness :
    (∀ p ∈ ([""] : List String), p = "") ∧
      (∀ n ∈ (["", ""] : List String), n = "") ∧
      expand_all_transactions_for_entities cfgSample dbSample [""] ["", ""] =
        [] :=
  ⟨by decide, by decide,
    expand_empty_sets cfgSample dbSample [""] ["", ""] (by decide) (by decide)⟩

/-- C7: with a configured (non-zero) result-row cap, closure expansion
returns at most `limit_return_rows` rows. -/
theorem expand_row_cap (cfg : Config) (db : DB) (pans names : List String)
    (h : 0 < cfg.limit_return_rows) :
    (expand_all_transactions_for_entities cfg db pans names).length ≤
      cfg.limit_return_rows := by
  unfold expand_all_transactions_for_entities
  rw [if_pos (by omega)]
  simp [List.length_take]

/-- Witness for C7 at a concrete configuration and table. -/
theorem expand_row_cap_witness :
    0 < cfgSample.limit_return_rows ∧
      (expand_all_transactions_for_entities cfgSample dbSample
          ["ABCDE1234F"] ["john doe"]).length ≤ cfgSample.limit_return_rows :=
  ⟨by decide,
    expand_row_cap cfgSample dbSample ["ABCDE1234F"] ["john doe"] (by decide)⟩

/-- C9: the empty seed name normalizes to the empty string, blocking
finds no keys, and the closure expansion receives only empty strings,
so the whole search returns the empty result (and, being a total
function, raises no error). -/
theorem search_by_seed_name_empty (ext : Ext) (cfg : Config) (db : DB) :
    search_by_seed_name ext cfg db "" = [] := by
  have hblock :
      candidate_block_by_names ext cfg db [normalize_name ""] = ([], 0) :=
    candidate_block_empty_names ext cfg db _ (by simp [normalize_name])
  simp only [search_by_seed_name, hblock, List.filter_nil, List.map_nil,
    List.nil_append]
  exact expand_empty_sets cfg db [] (dedup [normalize_name ""]) (by simp)
    (by
      intro n hn
      simpa [normalize_name, dedup, dedupAcc] using hn)

/-- C10: `verify_candidate` reads only the normalized name, the address
and the mobile of a row; two rows agreeing on those three fields get
the same verdict whatever their `name_phonetic` and `pan_upper`. -/
theorem verify_candidate_ignores_phonetic_pan (ext : Ext) (cfg : Config)
    (base : List String) (r1 r2 : Row)
    (hn : r1.name_norm = r2.name_norm) (ha : r1.address = r2.address)
    (hm : r1.mobile = r2.mobile) :
    verify_candidate ext cfg base r1 = verify_candidate ext cfg base r2 := by
  cases r1
  cases r2
  simp only at hn ha hm
  subst hn
  subst ha
  subst hm
  rfl

/-- Witness for C10: two rows differing only in phonetic key and PAN. -/
theorem verify_candidate_ignores_phonetic_pan_witness :
    verify_candidate extSample cfgSample ["john doe"]
        ⟨"john doe", "PH1", "addr", "999", "AAAAA1111A"⟩ =
      verify_candidate extSample cfgSample ["john doe"]
        ⟨"john doe", "PH2", "addr", "999", "BBBBB2222B"⟩ :=
  verify_candidate_ignores_phonetic_pan extSample cfgSample ["john doe"]
    ⟨"john doe", "PH1", "addr", "999", "AAAAA1111A"⟩
    ⟨"john doe", "PH2", "addr", "999", "BBBBB2222B"⟩ rfl rfl rfl

/-- C6: `phonetic_key` yields the empty string on empty input;
otherwise it routes on the detected script, applying dmetaphone to the
ITRANS romanization for Devanagari text and to the original text
otherwise, and returns the primary code when non-empty, else the
secondary code, else the empty string. -/
theorem phonetic_key_script_routing (ext : Ext) (text : String) :
    phonetic_key ext text =
      if text = "" then ""
      else
        let pr :=
          if is_devanagari text then ext.dmetaphone (ext.itrans text)
          else ext.dmetaphone text
        if pr.1 ≠ "" then pr.1 else if pr.2 ≠ "" then pr.2 else "" := by
  unfold phonetic_key detect_language marathi_phonetic_key
    english_phonetic_key devanagari_to_latin
  by_cases h0 : text = ""
  · simp [h0]
  · rw [if_neg h0, if_neg h0]
    by_cases hdev : is_devanagari text
    · simp only [hdev, if_pos, if_true, reduceIte]
      rw [strOr_empty_right]
      unfold strOr
      split <;> simp_all
    · simp only [hdev, if_false, reduceIte]
      rw [strOr_empty_right]
      unfold strOr
      split <;> simp_all

/-- C1: in the loose tier (best name score at least `name_loose` but
below `name_medium`, with the tiers ordered `name_medium ≤
name_strict` as the spec presents them), a candidate with a non-empty
normalized name is accepted exactly when its address scored against
itself reaches `address_loose`, or mobile corroboration holds (mobile
matching not required, or the mobile is non-empty and occurs in
itself); in particular every such candidate is accepted whenever
mobile matching is not required. -/
theorem verify_candidate_loose_tier (ext : Ext) (cfg : Config)
    (base : List String) (row : Row)
    (hname : row.name_norm ≠ "")
    (hms : cfg.name_medium ≤ cfg.name_strict)
    (hlo : cfg.name_loose ≤ bestNameScore ext base row.name_norm)
    (hhi : bestNameScore ext base row.name_norm < cfg.name_medium) :
    (verify_candidate ext cfg base row = true ↔
      (cfg.address_loose ≤ fuzzy_address_score ext row.address row.address ∨
        (cfg.mobile_exact_required = false ∨
          (row.mobile ≠ "" ∧ hasSub row.mobile.data row.mobile.data = true)))) ∧
    (cfg.mobile_exact_required = false → verify_candidate ext cfg base row = true) := by
  have hverify : verify_candidate ext cfg base row =
      (decide (cfg.address_loose ≤
          fuzzy_address_score ext row.address row.address) ||
        (if !cfg.mobile_exact_required then true
          else decide (row.mobile ≠ "") &&
            hasSub row.mobile.data row.mobile.data)) := by
    unfold verify_candidate
    rw [if_neg hname, if_neg (by omega), if_neg (by omega), if_pos hlo]
    simp only [strOr_empty_right, List.foldl_cons, List.foldl_nil,
      Nat.zero_max]
  constructor
  · rw [hverify]
    cases hreq : cfg.mobile_exact_required <;>
      simp [hreq, Bool.or_eq_true, decide_eq_true_eq, Bool.and_eq_true]
  · intro hreq
    rw [hverify, hreq]
    simp

/-- Counterexample to C3 as stated: a non-empty base row list whose
single row has an empty normalized name yields an empty canonical name
set, although the seed identifier matched one row. -/
theorem pick_canonical_names_empty_counterexample :
    ([(⟨"", "", "", "", "ABCDE1234F"⟩ : Row)] ≠ []) ∧
      pick_canonical_names
        (([(⟨"", "", "", "", "ABCDE1234F"⟩ : Row)]).map Row.name_norm) = [] := by
  refine ⟨by decide, by decide⟩

/-- C3 amended: the canonical name set has at most three entries, no
duplicates, all drawn from the non-empty input names, it is ordered by
descending frequency with ties broken by first-seen position, and it is
non-empty whenever at least one input name is non-empty (frequency and
first-seen position are taken over the sequence of non-empty names). -/
theorem pick_canonical_names_spec (names : List String) :
    (pick_canonical_names names).length ≤ 3 ∧
    (pick_canonical_names names).Nodup ∧
    (∀ n ∈ pick_canonical_names names, n ∈ names ∧ n ≠ "") ∧
    (pick_canonical_names names).Pairwise (fun a b =>
      (names.filter (fun n => n ≠ "")).count b <
          (names.filter (fun n => n ≠ "")).count a ∨
        ((names.filter (fun n => n ≠ "")).count a =
            (names.filter (fun n => n ≠ "")).count b ∧
          (names.filter (fun n => n ≠ "")).indexOf a <
            (names.filter (fun n => n ≠ "")).indexOf b)) ∧
    ((∃ n ∈ names, n ≠ "") → pick_canonical_names names ≠ []) := by
  have hpick : pick_canonical_names names =
      (sortRanked (rankLE (names.filter (fun n => n ≠ "")))
        (dedup (names.filter (fun n => n ≠ "")))).take 3 := rfl
  set ns := names.filter (fun n => n ≠ "") with hns
  set sorted := sortRanked (rankLE ns) (dedup ns) with hsorted
  have hperm : List.Perm sorted (dedup ns) := sortRanked_perm _ _
  have hmem_ns : ∀ a ∈ sorted, a ∈ ns := by
    intro a ha
    exact (dedupAcc_sound ns [] a (hperm.mem_iff.mp ha)).1
  have hnodup : sorted.Nodup := hperm.nodup_iff.mpr (dedupAcc_nodup ns [])
  have hsub : List.Sublist (sorted.take 3) sorted := List.take_sublist 3 sorted
  refine ⟨?_, ?_, ?_, ?_, ?_⟩
  · rw [hpick]
    simp [List.length_take]
  · rw [hpick]
    exact hnodup.sublist hsub
  · rw [hpick]
    intro n hn
    have hn' : n ∈ ns := hmem_ns n (hsub.subset hn)
    rw [hns] at hn'
    rcases List.mem_filter.mp hn' with ⟨h1, h2⟩
    exact ⟨h1, by simpa using h2⟩
  · rw [hpick]
    refine List.Pairwise.sublist hsub ?_
    have hpair : sorted.Pairwise (fun a b => rankLE ns a b = true) :=
      pairwise_sortRanked (rankLE ns) (rankLE_total ns) (rankLE_trans ns) _
    have hne : sorted.Pairwise (fun a b => a ≠ b) := hnodup
    refine (hpair.and hne).imp_of_mem ?_
    intro a b ha hb hab
    rcases hab with ⟨hr, hneq⟩
    rw [rankLE_iff] at hr
    rcases hr with hlt | ⟨heq, hle⟩
    · exact Or.inl hlt
    · refine Or.inr ⟨heq, ?_⟩
      have hidx : ns.indexOf a ≠ ns.indexOf b := by
        intro hcontra
        exact hneq ((List.indexOf_inj (hmem_ns a ha) (hmem_ns b hb)).mp hcontra)
      omega
  · intro ⟨n, hin, hne⟩
    rw [hpick]
    have hmem : n ∈ ns := by
      rw [hns]
      exact List.mem_filter.mpr ⟨hin, by simpa using hne⟩
    have hlen : 0 < sorted.length := by
      rw [hperm.length_eq]
      rcases hd : dedup ns with _ | ⟨x, xs⟩
      · exfalso
        rcases hns' : ns with _ | ⟨y, ys⟩
        · rw [hns'] at hmem
          exact absurd hmem (List.not_mem_nil n)
        · rw [hns'] at hd
          unfold dedup dedupAcc at hd
          simp at hd
      · simp
    have : 0 < (sorted.take 3).length := by
      rw [List.length_take]
      omega
    exact List.ne_nil_of_length_pos this

/-- Witness for C3 at the concrete name list `["b", "a", "a", ""]`. -/
theorem pick_canonical_names_spec_witness :
    (∃ n ∈ (["b", "a", "a", ""] : List String), n ≠ "") ∧
      pick_canonical_names ["b", "a", "a", ""] ≠ [] :=
  ⟨⟨"b", by decide⟩,
    (pick_canonical_names_spec ["b", "a", "a", ""]).2.2.2.2 ⟨"b", by decide⟩⟩

/-- Counterexample to C2 as stated: the Python class `\w` keeps the
underscore, so `normalize_name` keeps it, while the claimed character
class (letters, digits, whitespace, Devanagari) would replace it by a
space. -/
theorem normalize_name_underscore_counterexample :
    normalize_name "a_b" = "a_b" ∧ claimed_normalize_name "a_b" = "a b" ∧
      normalize_name "a_b" ≠ claimed_normalize_name "a_b" := by
  refine ⟨by decide, by decide, by decide⟩

/-- C2 amended: `normalize_name` maps empty input to the empty string
and otherwise applies, in order, Unicode canonical composition, the
replacement by a space of every character that is not a letter, digit,
underscore, whitespace or Devanagari code point, whitespace folding
with trimming, and lower-casing. -/
theorem normalize_name_steps (raw : String) :
    normalize_name raw = amended_normalize_name raw := by
  unfold normalize_name amended_normalize_name normalize_punct
  have hclass : (fun c => if keepChar c then c else ' ') =
      (fun c =>
        if letterOrDigitChar c || c.toNat = 95 || pyIsSpace c || isDevChar c
        then c else ' ') := by
    funext c
    have : keepChar c =
        (letterOrDigitChar c || c.toNat = 95 || pyIsSpace c || isDevChar c) := by
      simp [keepChar, pyIsWordChar, letterOrDigitChar, Bool.or_assoc]
    rw [this]
  rw [hclass]

/-- Counterexample to C8 as stated: at the input U+0130 the program is
not idempotent.  The letter is a `\w` word character, so the first
pass keeps it and `str.lower` expands it, per Unicode SpecialCasing,
to U+0069 U+0307; on the second pass the combining mark U+0307 is not
a word character, is replaced by a space and stripped, leaving `"i"`. -/
theorem normalize_name_not_idempotent :
    normalize_name "İ" = "i̇" ∧
      normalize_name (normalize_name "İ") = "i" ∧
      normalize_name (normalize_name "İ") ≠ normalize_name "İ" := by
  refine ⟨by decide, by decide, by decide⟩

/-- C8 amended: `normalize_name` is idempotent on every input that
contains no character whose lower-casing leaves the kept class — in
the modelled fragment, no U+0130.  For such inputs the output consists
only of kept characters (so the punctuation pass fixes it), its
whitespace is single interior spaces (so the folding pass fixes it),
it has no leading or trailing space (so the strip fixes it), and it is
already lower-cased (so the case pass fixes it). -/
theorem normalize_name_idempotent_no_special (raw : String)
    (h : ∀ c ∈ raw.data, c.toNat ≠ 0x130) :
    normalize_name (normalize_name raw) = normalize_name raw := by
  by_cases h0 : raw = ""
  · subst h0
    rfl
  · rw [normalize_name_data raw h0, nnCore_eq_ascii raw.data h]
    by_cases hy : nnCoreA raw.data = []
    · rw [hy]
      decide
    · have hne : (⟨nnCoreA raw.data⟩ : String) ≠ "" := by
        intro hcontra
        exact hy (congrArg String.data hcontra)
      rw [normalize_name_data _ hne]
      have h2 : nnCore (nnCoreA raw.data) = nnCoreA raw.data := by
        rw [nnCore_eq_ascii _ (noSpecial_nnCoreA raw.data h)]
        exact nnCoreA_idem raw.data
      exact congrArg (fun z => (⟨z⟩ : String)) h2

/-- Witness for the amended C8 at a concrete input without U+0130. -/
theorem normalize_name_idempotent_no_special_witness :
    (∀ c ∈ ("  John ,DOE  " : String).data, c.toNat ≠ 0x130) ∧
      normalize_name (normalize_name "  John ,DOE  ") =
        normalize_name "  John ,DOE  " :=
  ⟨by decide,
    normalize_name_idempotent_no_special "  John ,DOE  " (by decide)⟩

/-- Witness for C1: a constant 70 token-set ratio with the 90/80/60
tier configuration puts the best score in the loose band, and the
mobile flag is off. -/
theorem verify_candidate_loose_tier_witness :
    (("john doe" : String) ≠ "" ∧
      cfgSample.name_medium ≤ cfgSample.name_strict ∧
      cfgSample.name_loose ≤
        bestNameScore extSample ["jon doe"] "john doe" ∧
      bestNameScore extSample ["jon doe"] "john doe" <
        cfgSample.name_medium) ∧
    ((verify_candidate extSample cfgSample ["jon doe"]
          ⟨"john doe", "JN", "12 main st", "9999", ""⟩ = true ↔
        (cfgSample.address_loose ≤
            fuzzy_address_score extSample "12 main st" "12 main st" ∨
          (cfgSample.mobile_exact_required = false ∨
            (("9999" : String) ≠ "" ∧
              hasSub "9999".data "9999".data = true)))) ∧
      (cfgSample.mobile_exact_required = false →
        verify_candidate extSample cfgSample ["jon doe"]
          ⟨"john doe", "JN", "12 main st", "9999", ""⟩ = true)) :=
  ⟨⟨by decide, by decide, by decide, by decide⟩,
    verify_candidate_loose_tier extSample cfgSample ["jon doe"]
      ⟨"john doe", "JN", "12 main st", "9999", ""⟩
      (by decide) (by decide) (by decide) (by decide)⟩

end PanSearch
